import Mathlib

/-!
# Verification of `datadrivenpdes/advection/velocity_fields.py`

Shallow embedding of the `ConstantVelocityField` module: a divergence-free,
constant-in-time velocity field built as a weighted sum of sinusoids, with
point evaluation and exact cell-face averaging on a uniform 2-D grid.

Machine floats are modelled by real numbers; numpy arrays by lists of reals;
the 2-D mesh arrays by functions of the integer mesh indices.
-/

namespace VelocityFields

open Real

/-- Enum representing valid velocity field components (`VelocityComponent`). -/
inductive VelocityComponent where
  | X
  | Y
deriving DecidableEq

/-- Modelled from the spec: the external `Grid` contract
(`datadrivenpdes.core.grids` is not part of this module). A grid holds the
number of cells along each axis and the uniform spacing `step`; the domain
lengths are `size * step`. -/
structure Grid where
  size_x : ℕ
  size_y : ℕ
  step : ℝ

noncomputable def Grid.length_x (g : Grid) : ℝ := g.size_x * g.step

noncomputable def Grid.length_y (g : Grid) : ℝ := g.size_y * g.step

/-- Modelled from the spec: `get_mesh(shift)` gives the coordinates of each
grid cell sample point, offset by half-steps `shift` along each axis.
The mesh is represented as a function of the integer cell indices `(i, j)`. -/
noncomputable def Grid.get_mesh (g : Grid) (shift : ℤ × ℤ) (i j : ℕ) : ℝ × ℝ :=
  (((i : ℝ) + (shift.1 : ℝ) / 2) * g.step, ((j : ℝ) + (shift.2 : ℝ) / 2) * g.step)

/-- `_block_average_of_sin(k, x, phi, grid_step)`: average of
`sin(k * u + phi)` over `[x - grid_step/2, x + grid_step/2]`, with the `k == 0`
case selected explicitly (`np.where(k == 0, np.sin(phi), ...)`). -/
noncomputable def block_average_of_sin (k x phi grid_step : ℝ) : ℝ :=
  let x0 := x - grid_step / 2
  let x1 := x + grid_step / 2
  if k = 0 then Real.sin phi
  else 1 / (grid_step * k) * (Real.cos (k * x0 + phi) - Real.cos (k * x1 + phi))

/-- `ConstantVelocityField`: per-term integer wavenumbers, float amplitudes
and phase shifts, stored as equal-length arrays (here: lists of reals). -/
structure ConstantVelocityField where
  x_wavenumbers : List ℝ
  y_wavenumbers : List ℝ
  amplitudes : List ℝ
  phase_shifts : List ℝ

namespace ConstantVelocityField

/-- `__init__`: validates that the four parameter arrays share the same shape
(`raise ValueError('mismatched shapes')` otherwise) and stores them. -/
def init (x_wavenumbers y_wavenumbers amplitudes phase_shifts : List ℝ) :
    Except String ConstantVelocityField :=
  if x_wavenumbers.length = y_wavenumbers.length ∧
      y_wavenumbers.length = amplitudes.length ∧
      amplitudes.length = phase_shifts.length then
    Except.ok ⟨x_wavenumbers, y_wavenumbers, amplitudes, phase_shifts⟩
  else
    Except.error "mismatched shapes"

/-- `num_terms`: number of sin() terms (`amplitudes.size`). -/
def num_terms (f : ConstantVelocityField) : ℕ := f.amplitudes.length

/-- Per-term contribution of `evaluate` at mesh point `(x, y)`:
`scale * amplitude * sin(k_x*x + k_y*y + phase_shift)` where
`scale = y_wavenumber` for component X and `-x_wavenumber` for Y. -/
noncomputable def termValue (f : ConstantVelocityField) (c : VelocityComponent)
    (length_x length_y x y : ℝ) (t : ℕ) : ℝ :=
  let k_x := 2 * Real.pi * f.x_wavenumbers.getD t 0 / length_x
  let k_y := 2 * Real.pi * f.y_wavenumbers.getD t 0 / length_y
  let phase := k_x * x + k_y * y + f.phase_shifts.getD t 0
  let scale := match c with
    | VelocityComponent.X => f.y_wavenumbers.getD t 0
    | VelocityComponent.Y => -(f.x_wavenumbers.getD t 0)
  scale * f.amplitudes.getD t 0 * Real.sin phase

/-- `evaluate` at a single point of the domain: the sum over the term axis. -/
noncomputable def evaluatePoint (f : ConstantVelocityField) (c : VelocityComponent)
    (length_x length_y x y : ℝ) : ℝ :=
  ∑ t ∈ Finset.range f.num_terms, f.termValue c length_x length_y x y t

/-- `evaluate(component, grid, shift)` at mesh indices `(i, j)`. -/
noncomputable def evaluate (f : ConstantVelocityField) (c : VelocityComponent)
    (g : Grid) (shift : ℤ × ℤ) (i j : ℕ) : ℝ :=
  let p := g.get_mesh shift i j
  f.evaluatePoint c g.length_x g.length_y p.1 p.2

/-- Per-term contribution of `face_average` at mesh point `(x, y)`: the
sinusoid is replaced by its exact block average along the transverse axis
(y for component X, x for component Y). -/
noncomputable def faceTermValue (f : ConstantVelocityField) (c : VelocityComponent)
    (length_x length_y step x y : ℝ) (t : ℕ) : ℝ :=
  let k_x := 2 * Real.pi * f.x_wavenumbers.getD t 0 / length_x
  let k_y := 2 * Real.pi * f.y_wavenumbers.getD t 0 / length_y
  let phase := f.phase_shifts.getD t 0
  match c with
  | VelocityComponent.X =>
      f.y_wavenumbers.getD t 0 * f.amplitudes.getD t 0 *
        block_average_of_sin k_y y (k_x * x + phase) step
  | VelocityComponent.Y =>
      -(f.x_wavenumbers.getD t 0) * f.amplitudes.getD t 0 *
        block_average_of_sin k_x x (k_y * y + phase) step

/-- `face_average(component, grid, shift)` at mesh indices `(i, j)`. -/
noncomputable def face_average (f : ConstantVelocityField) (c : VelocityComponent)
    (g : Grid) (shift : ℤ × ℤ) (i j : ℕ) : ℝ :=
  let p := g.get_mesh shift i j
  ∑ t ∈ Finset.range f.num_terms,
    f.faceTermValue c g.length_x g.length_y g.step p.1 p.2 t

/-- `get_velocity_x(t, grid, shift, face_average)`: `t` is deleted; dispatch
on the `face_average` flag. -/
noncomputable def get_velocity_x (f : ConstantVelocityField) (t : ℝ) (g : Grid)
    (shift : ℤ × ℤ) (fa : Bool) (i j : ℕ) : ℝ :=
  if fa then f.face_average VelocityComponent.X g shift i j
  else f.evaluate VelocityComponent.X g shift i j

/-- `get_velocity_y(t, grid, shift, face_average)`: `t` is deleted; dispatch
on the `face_average` flag. -/
noncomputable def get_velocity_y (f : ConstantVelocityField) (t : ℝ) (g : Grid)
    (shift : ℤ × ℤ) (fa : Bool) (i j : ℕ) : ℝ :=
  if fa then f.face_average VelocityComponent.Y g shift i j
  else f.evaluate VelocityComponent.Y g shift i j

/-- The speeds `sqrt(v_x**2 + v_y**2)` sampled by `normalize` at every point
of a square test grid of side `n` with spacing `2π/n` (row-major order). -/
noncomputable def sampleSpeeds (f : ConstantVelocityField) (n : ℕ) : List ℝ :=
  let test_grid : Grid := ⟨n, n, 2 * Real.pi / n⟩
  ((List.range n) ×ˢ (List.range n)).map (fun ij =>
    Real.sqrt ((f.evaluate VelocityComponent.X test_grid (0, 0) ij.1 ij.2) ^ 2 +
      (f.evaluate VelocityComponent.Y test_grid (0, 0) ij.1 ij.2) ^ 2))

/-- `np.sqrt(v_x ** 2 + v_y ** 2).max()` in `normalize`: the maximum sampled
speed (every sampled speed is a square root, hence nonnegative, so folding
`max` from `0` computes the numpy maximum whenever the grid is nonempty). -/
noncomputable def v_max (f : ConstantVelocityField) (n : ℕ) : ℝ :=
  (sampleSpeeds f n).foldr max 0

/-- `normalize(test_grid_size=256)`: divides all amplitudes by the maximum
speed sampled on a square `test_grid_size` grid of domain length `2π`,
returning a new field. -/
noncomputable def normalize (f : ConstantVelocityField) (test_grid_size : ℕ := 256) :
    ConstantVelocityField :=
  ⟨f.x_wavenumbers, f.y_wavenumbers,
    f.amplitudes.map (fun a => a / v_max f test_grid_size), f.phase_shifts⟩

/-- The raveled `np.meshgrid(ks, ks, indexing='ij')` lattice of wavenumber
pairs built by `from_seed`, where `ks = np.arange(-max_periods, max_periods+1)`:
row-major pairs `(i - m, j - m)` for `i, j < 2m+1`. -/
def latticePairs (max_periods : ℕ) : List (ℤ × ℤ) :=
  ((List.range (2 * max_periods + 1)) ×ˢ (List.range (2 * max_periods + 1))).map
    (fun ij => ((ij.1 : ℤ) - max_periods, (ij.2 : ℤ) - max_periods))

/-- The per-term amplitude scale of `from_seed`:
`((k_x ** 2 + k_y ** 2) ** 0.5 + 1) ** float(power_law)`. -/
noncomputable def seedScale (power_law : ℝ) (k : ℤ × ℤ) : ℝ :=
  ((((k.1 : ℝ) ^ 2 + (k.2 : ℝ) ^ 2) ^ (0.5 : ℝ) + 1) : ℝ) ^ power_law

/-- `from_seed(max_periods, power_law, seed, normalize)`. The random source
is modelled from the spec as a supplied deterministic stream `draws` of
samples in `[0, 1)` local to the call (`np.random.RandomState(seed)` is
external); `random_sample` is called once for the amplitudes and once for the
phases, consuming the stream in order. -/
noncomputable def from_seed (max_periods : ℕ) (power_law : ℝ) (draws : ℕ → ℝ)
    (normalize_flag : Bool) : ConstantVelocityField :=
  let ks := latticePairs max_periods
  let n := ks.length
  let amplitudes := (List.range n).map (fun t => seedScale power_law (ks.getD t (0, 0)) * draws t)
  let phase_shifts := (List.range n).map (fun t => draws (n + t) * Real.pi * 2)
  let vfield : ConstantVelocityField :=
    ⟨ks.map (fun k => (k.1 : ℝ)), ks.map (fun k => (k.2 : ℝ)), amplitudes, phase_shifts⟩
  if normalize_flag then vfield.normalize 256 else vfield

end ConstantVelocityField

open ConstantVelocityField

/-! ## Theorems -/

/-- C5: For every `ConstantVelocityField`, every grid, every shift, every
`face_average` flag, and every pair of times `t1` and `t2`,
`get_velocity_x(t1, grid, shift, face_average)` equals
`get_velocity_x(t2, grid, shift, face_average)`, and likewise for
`get_velocity_y`: the time argument has no effect on the output. -/
theorem time_argument_has_no_effect (f : ConstantVelocityField) (t1 t2 : ℝ)
    (g : Grid) (shift : ℤ × ℤ) (fa : Bool) (i j : ℕ) :
    f.get_velocity_x t1 g shift fa i j = f.get_velocity_x t2 g shift fa i j ∧
    f.get_velocity_y t1 g shift fa i j = f.get_velocity_y t2 g shift fa i j :=
  ⟨rfl, rfl⟩

/-- C6: Construction from four parameter arrays fails with a validation error
iff the four arrays do not all share the same shape; on failure no object is
produced (the result is the error alone), and on success the four arrays are
stored unchanged. -/
theorem init_validates_shapes (xw yw amp ph : List ℝ) :
    ((∃ e, init xw yw amp ph = Except.error e) ↔
      ¬(xw.length = yw.length ∧ yw.length = amp.length ∧
        amp.length = ph.length)) ∧
    (∀ f, init xw yw amp ph = Except.ok f →
      f.x_wavenumbers = xw ∧ f.y_wavenumbers = yw ∧
      f.amplitudes = amp ∧ f.phase_shifts = ph) := by
  unfold init
  split
  · rename_i h
    refine ⟨⟨fun ⟨e, he⟩ => by simp at he, fun hn => absurd h hn⟩, ?_⟩
    intro f hf
    cases hf
    exact ⟨rfl, rfl, rfl, rfl⟩
  · rename_i h
    exact ⟨⟨fun _ => h, fun _ => ⟨"mismatched shapes", rfl⟩⟩, fun f hf => by cases hf⟩

/-- Witness for C6: a matched construction stores the arrays unchanged, and a
mismatched one fails with an error. -/
theorem init_validates_shapes_witness :
    ((⟨[1], [2], [3], [4]⟩ : ConstantVelocityField).x_wavenumbers = [1] ∧
      (⟨[1], [2], [3], [4]⟩ : ConstantVelocityField).amplitudes = [3]) ∧
    (∃ e, init [1] [] [] [] = Except.error e) := by
  refine ⟨?_, (init_validates_shapes [1] [] [] []).1.mpr (by simp)⟩
  have h := (init_validates_shapes [1] [2] [3] [4]).2
    ⟨[1], [2], [3], [4]⟩ (by simp [init])
  exact ⟨h.1, h.2.2.1⟩

/-- C4: the `k == 0` case of the block average is resolved by explicit
selection of the limiting value `sin(phi)` (never a bare division), and a
field whose term has `x_wavenumber = y_wavenumber = 0` produces well-defined
(finite) output from both `evaluate` and `face_average` on every grid. -/
theorem zero_wavenumber_explicit_selection :
    (∀ u phi s : ℝ, block_average_of_sin 0 u phi s = Real.sin phi) ∧
    (∀ (a p : ℝ) (c : VelocityComponent) (g : Grid) (shift : ℤ × ℤ) (i j : ℕ),
      (⟨[0], [0], [a], [p]⟩ : ConstantVelocityField).evaluate c g shift i j = 0 ∧
      (⟨[0], [0], [a], [p]⟩ : ConstantVelocityField).face_average c g shift i j = 0) := by
  refine ⟨fun u phi s => by simp [block_average_of_sin], ?_⟩
  intro a p c g shift i j
  cases c <;>
    simp [evaluate, evaluatePoint, termValue, num_terms, face_average, faceTermValue]

/-- C2: `face_average(component, grid, shift)` is the sum over terms of
`scale * amplitude * A` where `A` is the closed-form block average of the
term's sinusoid along the transverse axis (`y` for X with remaining phase
`k_x*x + phase_shift`, `x` for Y with remaining phase `k_y*y + phase_shift`),
and the block average equals `sin(phi)` when `k = 0` and
`(cos(k*(u - s/2) + phi) - cos(k*(u + s/2) + phi)) / (k * s)` otherwise. -/
theorem face_average_is_block_averaged_sum (f : ConstantVelocityField)
    (g : Grid) (shift : ℤ × ℤ) (i j : ℕ) :
    (f.face_average VelocityComponent.X g shift i j =
      ∑ t ∈ Finset.range f.num_terms,
        f.y_wavenumbers.getD t 0 * f.amplitudes.getD t 0 *
          block_average_of_sin (2 * Real.pi * f.y_wavenumbers.getD t 0 / g.length_y)
            (g.get_mesh shift i j).2
            (2 * Real.pi * f.x_wavenumbers.getD t 0 / g.length_x *
              (g.get_mesh shift i j).1 + f.phase_shifts.getD t 0)
            g.step) ∧
    (f.face_average VelocityComponent.Y g shift i j =
      ∑ t ∈ Finset.range f.num_terms,
        -(f.x_wavenumbers.getD t 0) * f.amplitudes.getD t 0 *
          block_average_of_sin (2 * Real.pi * f.x_wavenumbers.getD t 0 / g.length_x)
            (g.get_mesh shift i j).1
            (2 * Real.pi * f.y_wavenumbers.getD t 0 / g.length_y *
              (g.get_mesh shift i j).2 + f.phase_shifts.getD t 0)
            g.step) ∧
    (∀ k u phi s : ℝ, block_average_of_sin k u phi s =
      if k = 0 then Real.sin phi
      else (Real.cos (k * (u - s / 2) + phi) - Real.cos (k * (u + s / 2) + phi)) /
        (k * s)) := by
  refine ⟨rfl, rfl, fun k u phi s => ?_⟩
  unfold block_average_of_sin
  split
  · rfl
  · ring

/-- C1: `evaluate(component, grid, shift)` returns the sum over terms of
`scale * amplitude * sin(k_x*x + k_y*y + phase_shift)` at each mesh point,
with `k_x = 2π·x_wavenumber/length_x`, `k_y = 2π·y_wavenumber/length_y` and
`scale = y_wavenumber` for X, `-x_wavenumber` for Y; in particular for the
single term `x_wavenumber=1, y_wavenumber=0, amplitude=1, phase=0` on a grid
of length `2π` the X component is identically zero and the Y component is
`-sin(x)` at each mesh point. -/
theorem evaluate_is_sinusoid_sum (f : ConstantVelocityField) (g : Grid)
    (shift : ℤ × ℤ) (i j : ℕ) :
    (f.evaluate VelocityComponent.X g shift i j =
      ∑ t ∈ Finset.range f.num_terms,
        f.y_wavenumbers.getD t 0 * f.amplitudes.getD t 0 *
          Real.sin (2 * Real.pi * f.x_wavenumbers.getD t 0 / g.length_x *
              (g.get_mesh shift i j).1 +
            2 * Real.pi * f.y_wavenumbers.getD t 0 / g.length_y *
              (g.get_mesh shift i j).2 +
            f.phase_shifts.getD t 0)) ∧
    (f.evaluate VelocityComponent.Y g shift i j =
      ∑ t ∈ Finset.range f.num_terms,
        -(f.x_wavenumbers.getD t 0) * f.amplitudes.getD t 0 *
          Real.sin (2 * Real.pi * f.x_wavenumbers.getD t 0 / g.length_x *
              (g.get_mesh shift i j).1 +
            2 * Real.pi * f.y_wavenumbers.getD t 0 / g.length_y *
              (g.get_mesh shift i j).2 +
            f.phase_shifts.getD t 0)) ∧
    ((⟨[1], [0], [1], [0]⟩ : ConstantVelocityField).evaluate VelocityComponent.X
      ⟨8, 8, Real.pi / 4⟩ (0, 0) i j = 0) ∧
    ((⟨[1], [0], [1], [0]⟩ : ConstantVelocityField).evaluate VelocityComponent.Y
      ⟨8, 8, Real.pi / 4⟩ (0, 0) i j =
      -Real.sin (((⟨8, 8, Real.pi / 4⟩ : Grid).get_mesh (0, 0) i j).1)) := by
  refine ⟨rfl, rfl, ?_, ?_⟩
  · simp [evaluate, evaluatePoint, termValue, num_terms]
  · have hL : (2 : ℝ) * Real.pi / Grid.length_x ⟨8, 8, Real.pi / 4⟩ = 1 := by
      simp only [Grid.length_x]
      push_cast
      field_simp
      ring
    simp only [evaluate, evaluatePoint, termValue, num_terms, List.length_cons,
      List.length_nil, Finset.sum_range_one, List.getD]
    simp [hL]

/-- The x-derivative of the point-evaluated X component: each sinusoidal term
differentiates to `scale * amplitude * cos(φ) * k_x`. -/
lemma hasDerivAt_evaluatePoint_X (f : ConstantVelocityField) (Lx Ly y x : ℝ) :
    HasDerivAt (fun x' => f.evaluatePoint VelocityComponent.X Lx Ly x' y)
      (∑ t ∈ Finset.range f.num_terms,
        f.y_wavenumbers.getD t 0 * f.amplitudes.getD t 0 *
          (Real.cos (2 * Real.pi * f.x_wavenumbers.getD t 0 / Lx * x +
              2 * Real.pi * f.y_wavenumbers.getD t 0 / Ly * y +
              f.phase_shifts.getD t 0) *
            (2 * Real.pi * f.x_wavenumbers.getD t 0 / Lx * 1))) x := by
  simp only [evaluatePoint, termValue]
  apply HasDerivAt.sum
  intro t _
  exact ((((hasDerivAt_id x).const_mul
      (2 * Real.pi * f.x_wavenumbers.getD t 0 / Lx)).add_const
      (2 * Real.pi * f.y_wavenumbers.getD t 0 / Ly * y)).add_const
      (f.phase_shifts.getD t 0)).sin.const_mul
      (f.y_wavenumbers.getD t 0 * f.amplitudes.getD t 0)

/-- The y-derivative of the point-evaluated Y component: each sinusoidal term
differentiates to `scale * amplitude * cos(φ) * k_y`. -/
lemma hasDerivAt_evaluatePoint_Y (f : ConstantVelocityField) (Lx Ly x y : ℝ) :
    HasDerivAt (fun y' => f.evaluatePoint VelocityComponent.Y Lx Ly x y')
      (∑ t ∈ Finset.range f.num_terms,
        -(f.x_wavenumbers.getD t 0) * f.amplitudes.getD t 0 *
          (Real.cos (2 * Real.pi * f.x_wavenumbers.getD t 0 / Lx * x +
              2 * Real.pi * f.y_wavenumbers.getD t 0 / Ly * y +
              f.phase_shifts.getD t 0) *
            (2 * Real.pi * f.y_wavenumbers.getD t 0 / Ly * 1))) y := by
  simp only [evaluatePoint, termValue]
  apply HasDerivAt.sum
  intro t _
  exact ((((hasDerivAt_id y).const_mul
      (2 * Real.pi * f.y_wavenumbers.getD t 0 / Ly)).const_add
      (2 * Real.pi * f.x_wavenumbers.getD t 0 / Lx * x)).add_const
      (f.phase_shifts.getD t 0)).sin.const_mul
      (-(f.x_wavenumbers.getD t 0) * f.amplitudes.getD t 0)

/-- C3 (amended): on every grid whose domain lengths agree
(`length_x = length_y`), the analytic divergence of the point-evaluated field
`(evaluate X, evaluate Y)` vanishes identically: each term is a rotated
gradient of a scalar stream function. -/
theorem divergence_free_on_equal_length_domain (f : ConstantVelocityField)
    (g : Grid) (hg : g.length_x = g.length_y) (x y : ℝ) :
    deriv (fun x' => f.evaluatePoint VelocityComponent.X g.length_x g.length_y x' y) x +
      deriv (fun y' => f.evaluatePoint VelocityComponent.Y g.length_x g.length_y x y') y
      = 0 := by
  rw [(hasDerivAt_evaluatePoint_X f g.length_x g.length_y y x).deriv,
    (hasDerivAt_evaluatePoint_Y f g.length_x g.length_y x y).deriv,
    ← Finset.sum_add_distrib]
  apply Finset.sum_eq_zero
  intro t _
  rw [hg]
  ring

/-- Witness for C3 (amended): a concrete square-domain grid satisfies the
hypothesis and the divergence vanishes there. -/
theorem divergence_free_on_equal_length_domain_witness :
    Grid.length_x ⟨2, 2, 1⟩ = Grid.length_y ⟨2, 2, 1⟩ ∧
    deriv (fun x' => (⟨[1], [1], [1], [0]⟩ : ConstantVelocityField).evaluatePoint
        VelocityComponent.X (Grid.length_x ⟨2, 2, 1⟩) (Grid.length_y ⟨2, 2, 1⟩) x' 0) 0 +
      deriv (fun y' => (⟨[1], [1], [1], [0]⟩ : ConstantVelocityField).evaluatePoint
        VelocityComponent.Y (Grid.length_x ⟨2, 2, 1⟩) (Grid.length_y ⟨2, 2, 1⟩) 0 y') 0
      = 0 :=
  ⟨rfl, divergence_free_on_equal_length_domain ⟨[1], [1], [1], [0]⟩ ⟨2, 2, 1⟩ rfl 0 0⟩

/-- Counterexample to C3 as stated: on the grid `Grid(1, 2, 2π)` (domain
lengths `2π` and `4π`), the single term with both wavenumbers `1`, amplitude
`1` and phase `0` has divergence `1/2 ≠ 0` at the origin. -/
theorem divergence_nonzero_on_unequal_length_domain :
    Grid.length_x ⟨1, 2, 2 * Real.pi⟩ ≠ Grid.length_y ⟨1, 2, 2 * Real.pi⟩ ∧
    deriv (fun x' => (⟨[1], [1], [1], [0]⟩ : ConstantVelocityField).evaluatePoint
        VelocityComponent.X (Grid.length_x ⟨1, 2, 2 * Real.pi⟩)
        (Grid.length_y ⟨1, 2, 2 * Real.pi⟩) x' 0) 0 +
      deriv (fun y' => (⟨[1], [1], [1], [0]⟩ : ConstantVelocityField).evaluatePoint
        VelocityComponent.Y (Grid.length_x ⟨1, 2, 2 * Real.pi⟩)
        (Grid.length_y ⟨1, 2, 2 * Real.pi⟩) 0 y') 0
      = 1 / 2 ∧
    (1 / 2 : ℝ) ≠ 0 := by
  have hpi := Real.pi_pos
  refine ⟨?_, ?_, by norm_num⟩
  · simp only [Grid.length_x, Grid.length_y]
    push_cast
    intro h
    nlinarith
  · rw [(hasDerivAt_evaluatePoint_X ⟨[1], [1], [1], [0]⟩ _ _ 0 0).deriv,
      (hasDerivAt_evaluatePoint_Y ⟨[1], [1], [1], [0]⟩ _ _ 0 0).deriv]
    simp only [num_terms, List.length_cons, List.length_nil, Finset.sum_range_one,
      List.getD, Grid.length_x, Grid.length_y]
    push_cast
    simp only [mul_zero, zero_mul, zero_add, add_zero, Real.cos_zero]
    field_simp
    ring

lemma getD_map_range (n : ℕ) (f : ℕ → ℝ) {t : ℕ} (ht : t < n) :
    ((List.range n).map f).getD t 0 = f t := by
  rw [List.getD_eq_getElem?_getD, List.getElem?_map, List.getElem?_range ht]
  rfl

lemma latticePairs_length (m : ℕ) :
    (latticePairs m).length = (2 * m + 1) ^ 2 := by
  simp [latticePairs, List.length_product, sq]

lemma mem_latticePairs (m : ℕ) (p : ℤ × ℤ) :
    p ∈ latticePairs m ↔
      -(m : ℤ) ≤ p.1 ∧ p.1 ≤ m ∧ -(m : ℤ) ≤ p.2 ∧ p.2 ≤ m := by
  simp only [latticePairs, List.mem_map, Prod.exists]
  constructor
  · rintro ⟨i, j, hmem, rfl⟩
    rw [List.mem_product, List.mem_range, List.mem_range] at hmem
    obtain ⟨hi, hj⟩ := hmem
    refine ⟨?_, ?_, ?_, ?_⟩ <;> simp <;> omega
  · rintro ⟨h1, h2, h3, h4⟩
    refine ⟨(p.1 + m).toNat, (p.2 + m).toNat, ?_, ?_⟩
    · rw [List.mem_product, List.mem_range, List.mem_range]
      omega
    · have e1 : (((p.1 + m).toNat : ℤ)) = p.1 + m := Int.toNat_of_nonneg (by omega)
      have e2 : (((p.2 + m).toNat : ℤ)) = p.2 + m := Int.toNat_of_nonneg (by omega)
      cases p
      simp only [Prod.mk.injEq, e1, e2]
      constructor <;> ring

lemma latticePairs_nodup (m : ℕ) : (latticePairs m).Nodup := by
  apply List.Nodup.map
  · rintro ⟨a1, a2⟩ ⟨b1, b2⟩ hab
    simp only [Prod.mk.injEq] at hab ⊢
    omega
  · exact (List.nodup_range _).product (List.nodup_range _)

/-- C7: `from_seed(max_periods, power_law, seed, normalize)` builds the field
from the full square lattice of integer wavenumber pairs with components in
`[-max_periods, max_periods]`: `(2*max_periods+1)^2` distinct terms including
the zero-wavenumber pair; the pre-normalization amplitude of term `t` is
`((k_x^2 + k_y^2)^0.5 + 1)^power_law` times the uniform draw `draws t` in
`[0,1)`, and each phase is a uniform draw times `2π`, hence in `[0, 2π)`. -/
theorem from_seed_builds_full_lattice (m : ℕ) (power_law : ℝ) (draws : ℕ → ℝ)
    (h0 : ∀ k, 0 ≤ draws k) (h1 : ∀ k, draws k < 1) :
    (from_seed m power_law draws false).num_terms = (2 * m + 1) ^ 2 ∧
    (latticePairs m).length = (2 * m + 1) ^ 2 ∧
    (latticePairs m).Nodup ∧
    (∀ p : ℤ × ℤ, p ∈ latticePairs m ↔
      -(m : ℤ) ≤ p.1 ∧ p.1 ≤ m ∧ -(m : ℤ) ≤ p.2 ∧ p.2 ≤ m) ∧
    (((0, 0) : ℤ × ℤ) ∈ latticePairs m) ∧
    ((from_seed m power_law draws false).x_wavenumbers.zip
        (from_seed m power_law draws false).y_wavenumbers =
      (latticePairs m).map (fun k => ((k.1 : ℝ), (k.2 : ℝ)))) ∧
    (∀ t, t < (2 * m + 1) ^ 2 →
      (from_seed m power_law draws false).amplitudes.getD t 0 =
        seedScale power_law ((latticePairs m).getD t (0, 0)) * draws t) ∧
    (∀ t, t < (2 * m + 1) ^ 2 →
      (from_seed m power_law draws false).phase_shifts.getD t 0 =
        draws ((2 * m + 1) ^ 2 + t) * Real.pi * 2 ∧
      0 ≤ (from_seed m power_law draws false).phase_shifts.getD t 0 ∧
      (from_seed m power_law draws false).phase_shifts.getD t 0 < 2 * Real.pi) := by
  have hpi := Real.pi_pos
  have hlen := latticePairs_length m
  refine ⟨?_, hlen, latticePairs_nodup m, mem_latticePairs m, ?_, ?_, ?_, ?_⟩
  · simp [from_seed, num_terms, hlen]
  · rw [mem_latticePairs]
    omega
  · simp [from_seed, List.zip_map']
  · intro t ht
    simp only [from_seed, Bool.false_eq_true, if_false]
    rw [hlen, getD_map_range _ _ ht]
  · intro t ht
    simp only [from_seed, Bool.false_eq_true, if_false]
    rw [hlen, getD_map_range _ _ ht]
    refine ⟨rfl, ?_, ?_⟩
    · have := h0 ((2 * m + 1) ^ 2 + t)
      positivity
    · have hd := h1 ((2 * m + 1) ^ 2 + t)
      nlinarith [h0 ((2 * m + 1) ^ 2 + t)]

/-- Witness for C7: with `max_periods = 1` and the constant draw stream `0`
(in `[0,1)`), the built field has `9` terms and the lattice contains `(0,0)`. -/
theorem from_seed_builds_full_lattice_witness :
    (from_seed 1 (-3) (fun _ => 0) false).num_terms = 9 ∧
    (((0, 0) : ℤ × ℤ) ∈ latticePairs 1) := by
  obtain ⟨hn, -, -, -, hz, -⟩ :=
    from_seed_builds_full_lattice 1 (-3) (fun _ => 0)
      (fun _ => le_refl 0) (fun _ => one_pos)
  exact ⟨by rw [hn]; norm_num, hz⟩

/-- C8: `from_seed` consumes only its own draw stream (the generator is local
to the call): two calls whose streams agree on the `2·(2m+1)²` draws actually
consumed produce identical wavenumber, amplitude and phase arrays, hence
identical fields and identical evaluated output on every grid. -/
theorem from_seed_is_deterministic (m : ℕ) (power_law : ℝ) (nb : Bool)
    (d1 d2 : ℕ → ℝ) (h : ∀ k, k < 2 * (2 * m + 1) ^ 2 → d1 k = d2 k) :
    from_seed m power_law d1 nb = from_seed m power_law d2 nb ∧
    (from_seed m power_law d1 nb).x_wavenumbers =
      (from_seed m power_law d2 nb).x_wavenumbers ∧
    (from_seed m power_law d1 nb).y_wavenumbers =
      (from_seed m power_law d2 nb).y_wavenumbers ∧
    (from_seed m power_law d1 nb).amplitudes =
      (from_seed m power_law d2 nb).amplitudes ∧
    (from_seed m power_law d1 nb).phase_shifts =
      (from_seed m power_law d2 nb).phase_shifts ∧
    ∀ (c : VelocityComponent) (g : Grid) (shift : ℤ × ℤ) (i j : ℕ),
      (from_seed m power_law d1 nb).evaluate c g shift i j =
        (from_seed m power_law d2 nb).evaluate c g shift i j := by
  have hlen := latticePairs_length m
  have heq : from_seed m power_law d1 nb = from_seed m power_law d2 nb := by
    have hamp : (List.range (latticePairs m).length).map
        (fun t => seedScale power_law ((latticePairs m).getD t (0, 0)) * d1 t) =
        (List.range (latticePairs m).length).map
          (fun t => seedScale power_law ((latticePairs m).getD t (0, 0)) * d2 t) := by
      apply List.map_congr_left
      intro t ht
      rw [List.mem_range, hlen] at ht
      rw [h t (by omega)]
    have hph : (List.range (latticePairs m).length).map
        (fun t => d1 ((latticePairs m).length + t) * Real.pi * 2) =
        (List.range (latticePairs m).length).map
          (fun t => d2 ((latticePairs m).length + t) * Real.pi * 2) := by
      apply List.map_congr_left
      intro t ht
      rw [List.mem_range, hlen] at ht
      rw [h ((latticePairs m).length + t) (by rw [hlen]; omega)]
    simp only [from_seed]
    rw [hamp, hph]
  exact ⟨heq, by rw [heq], by rw [heq], by rw [heq], by rw [heq],
    fun c g shift i j => by rw [heq]⟩

/-- Witness for C8: two concrete draw streams that agree on the first two
draws (all that `from_seed 0 _ _` consumes) yield the same field. -/
theorem from_seed_is_deterministic_witness :
    from_seed 0 (-3) (fun _ => 0) false =
      from_seed 0 (-3) (fun k => if k < 2 then 0 else 1) false :=
  (from_seed_is_deterministic 0 (-3) false (fun _ => 0)
    (fun k => if k < 2 then 0 else 1)
    (by intro k hk; norm_num at hk; simp [hk])).1

lemma getD_map_div (l : List ℝ) (c : ℝ) (t : ℕ) :
    (l.map (fun a => a / c)).getD t 0 = l.getD t 0 / c := by
  rw [List.getD_eq_getElem?_getD, List.getD_eq_getElem?_getD, List.getElem?_map]
  cases l[t]? <;> simp

lemma termValue_normalize (f : ConstantVelocityField) (n : ℕ)
    (c : VelocityComponent) (Lx Ly x y : ℝ) (t : ℕ) :
    (f.normalize n).termValue c Lx Ly x y t =
      f.termValue c Lx Ly x y t / v_max f n := by
  cases c <;>
    · simp only [termValue, ConstantVelocityField.normalize, getD_map_div]
      ring

lemma evaluatePoint_normalize (f : ConstantVelocityField) (n : ℕ)
    (c : VelocityComponent) (Lx Ly x y : ℝ) :
    (f.normalize n).evaluatePoint c Lx Ly x y =
      f.evaluatePoint c Lx Ly x y / v_max f n := by
  have hlen : (f.normalize n).num_terms = f.num_terms := by
    simp [num_terms, ConstantVelocityField.normalize]
  simp only [evaluatePoint, hlen]
  rw [Finset.sum_div]
  exact Finset.sum_congr rfl fun t _ => termValue_normalize f n c Lx Ly x y t

lemma evaluate_normalize (f : ConstantVelocityField) (n : ℕ)
    (c : VelocityComponent) (g : Grid) (shift : ℤ × ℤ) (i j : ℕ) :
    (f.normalize n).evaluate c g shift i j =
      f.evaluate c g shift i j / v_max f n := by
  simp only [evaluate]
  exact evaluatePoint_normalize f n c g.length_x g.length_y _ _

lemma sampleSpeeds_normalize (f : ConstantVelocityField) (n : ℕ)
    (hc : 0 < v_max f n) :
    sampleSpeeds (f.normalize n) n =
      (sampleSpeeds f n).map (fun s => s / v_max f n) := by
  simp only [sampleSpeeds, List.map_map]
  apply List.map_congr_left
  intro ij _
  simp only [Function.comp_apply, evaluate_normalize]
  rw [div_pow, div_pow, div_add_div_same, Real.sqrt_div (by positivity),
    Real.sqrt_sq hc.le]

lemma foldr_max_div (l : List ℝ) (c : ℝ) (hc : 0 < c) :
    (l.map (fun a => a / c)).foldr max 0 = l.foldr max 0 / c := by
  induction l with
  | nil => simp
  | cons a l ih =>
      simp only [List.map_cons, List.foldr_cons, ih]
      exact max_div_div_right hc.le a (l.foldr max 0)

lemma v_max_normalize (f : ConstantVelocityField) (n : ℕ)
    (hc : 0 < v_max f n) : v_max (f.normalize n) n = 1 := by
  unfold v_max
  rw [sampleSpeeds_normalize f n hc, foldr_max_div _ _ hc]
  exact div_self hc.ne'

/-- C9: `normalize(test_grid_size)` returns a new field with the same
wavenumbers and phases whose amplitudes are the original amplitudes divided
by the maximum pointwise speed `sqrt(vx² + vy²)` sampled on the square test
grid of side `test_grid_size` with spacing `2π/test_grid_size`; whenever that
sampled maximum is positive, the returned field's sampled maximum speed on
the same grid is exactly `1`. -/
theorem normalize_rescales_amplitudes (f : ConstantVelocityField) (n : ℕ) :
    ((f.normalize n).x_wavenumbers = f.x_wavenumbers ∧
      (f.normalize n).y_wavenumbers = f.y_wavenumbers ∧
      (f.normalize n).phase_shifts = f.phase_shifts ∧
      (f.normalize n).amplitudes = f.amplitudes.map (fun a => a / v_max f n)) ∧
    (0 < v_max f n → v_max (f.normalize n) n = 1) :=
  ⟨⟨rfl, rfl, rfl, rfl⟩, fun hc => v_max_normalize f n hc⟩

/-- Witness for C9: for the single-term field `sin`-phased at `π/2`, the
sampled maximum on the `1 × 1` test grid is `1 > 0`, and the normalized
field's sampled maximum is `1`. -/
theorem normalize_rescales_amplitudes_witness :
    0 < v_max ⟨[1], [0], [1], [Real.pi / 2]⟩ 1 ∧
    v_max ((⟨[1], [0], [1], [Real.pi / 2]⟩ : ConstantVelocityField).normalize 1) 1 = 1 := by
  have hv : v_max ⟨[1], [0], [1], [Real.pi / 2]⟩ 1 = 1 := by
    have hprod : (List.range 1 ×ˢ List.range 1 : List (ℕ × ℕ)) = [(0, 0)] := rfl
    simp [v_max, sampleSpeeds, hprod, evaluate, evaluatePoint, termValue,
      num_terms, Grid.get_mesh, Grid.length_x, Grid.length_y,
      Real.sin_pi_div_two]
  have hpos : (0 : ℝ) < v_max ⟨[1], [0], [1], [Real.pi / 2]⟩ 1 := by
    rw [hv]; norm_num
  exact ⟨hpos, (normalize_rescales_amplitudes ⟨[1], [0], [1], [Real.pi / 2]⟩ 1).2 hpos⟩

lemma getD_eq_zero_of_all_zero {l : List ℝ} (h : ∀ a ∈ l, a = 0) (t : ℕ) :
    l.getD t 0 = 0 := by
  rw [List.getD_eq_getElem?_getD]
  cases he : l[t]? with
  | none => rfl
  | some a => exact h a (List.getElem?_mem he)

lemma foldr_max_of_all_zero {l : List ℝ} (h : ∀ a ∈ l, a = 0) :
    l.foldr max 0 = 0 := by
  induction l with
  | nil => rfl
  | cons a l ih =>
      rw [List.foldr_cons, h a (List.mem_cons_self a l),
        ih fun b hb => h b (List.mem_cons_of_mem a hb)]
      exact max_self 0

/-- Supporting fact for the `normalize` zero-guard question: for a field whose
amplitudes are all zero, the sampled maximum speed is exactly `0`, and
`normalize` performs the division by it anyway (no validation is raised; every
returned amplitude is the division of the original amplitude by `0`, which in
IEEE floating point is `0/0`). -/
lemma normalize_divides_by_zero_max (f : ConstantVelocityField) (n : ℕ)
    (h : ∀ a ∈ f.amplitudes, a = 0) :
    v_max f n = 0 ∧
    (f.normalize n).amplitudes = f.amplitudes.map (fun a => a / 0) := by
  have hterm : ∀ (c : VelocityComponent) (g : Grid) (shift : ℤ × ℤ) (i j : ℕ),
      f.evaluate c g shift i j = 0 := by
    intro c g shift i j
    simp only [evaluate, evaluatePoint]
    apply Finset.sum_eq_zero
    intro t _
    cases c <;>
      · simp only [termValue]
        rw [getD_eq_zero_of_all_zero h t]
        simp
  have hvz : v_max f n = 0 := by
    apply foldr_max_of_all_zero
    intro a ha
    simp only [sampleSpeeds, List.mem_map] at ha
    obtain ⟨ij, -, rfl⟩ := ha
    rw [hterm, hterm]
    simp
  exact ⟨hvz, by simp only [ConstantVelocityField.normalize, hvz]⟩

/-- Witness instance of the zero-guard fact at a concrete all-zero field. -/
lemma normalize_divides_by_zero_max_witness :
    v_max ⟨[1], [1], [0], [0]⟩ 4 = 0 ∧
    ((⟨[1], [1], [0], [0]⟩ : ConstantVelocityField).normalize 4).amplitudes =
      [(0 : ℝ) / 0] :=
  (normalize_divides_by_zero_max ⟨[1], [1], [0], [0]⟩ 4 (by simp))

end VelocityFields
